import Mathlib

/-!
Shallow embedding of `src/memtable/terark_zip_memtable.cc`: the patricia-trie
memtable representation `PTrieRep`, its merging iterator and its factory,
together with proofs of the specification's claims about them.

Modelling conventions:
* machine integers are `Nat`, with an explicit `% 2 ^ 64` where the source
  relies on 64-bit wraparound (the sharding hash);
* byte strings (user keys, values) are `List Nat`;
* the patricia-trie and threaded-rbtree primitives are external collaborators
  whose sources are not part of this repository; every definition that models
  one of them from the specification says so in its doc comment;
* the varint/fixed64 codec that splits an internal key into `(user_key, tag)`
  is a collaborator as well, so lookup operations receive the user key and the
  tag as separate arguments.
-/

namespace TerarkMemtable

/-- A byte string; user keys and values are byte strings. -/
abbrev Bytes := List Nat

/-- One revision of a user key: the arena node `rep_node_t` (its tag plus the
varint-prefixed value, modelled as the raw value bytes). -/
structure RepNode where
  tag : Nat
  val : Bytes
deriving DecidableEq

/-- A version chain: the threaded rbtree holding every revision of one user
key, represented by its in-order (descending-tag) node sequence. -/
abbrev Chain := List RepNode

/-- Strict lexicographic (memcmp-style) order on byte strings: the order in
which the patricia trie enumerates its words. -/
def lexLt : Bytes → Bytes → Bool
  | [], [] => false
  | [], _ :: _ => true
  | _ :: _, [] => false
  | a :: as, b :: bs => if a < b then true else if b < a then false else lexLt as bs

theorem lexLt_irrefl (a : Bytes) : lexLt a a = false := by
  induction a with
  | nil => rfl
  | cons x xs ih => simp [lexLt, ih]

theorem lexLt_trans : ∀ {a b c : Bytes},
    lexLt a b = true → lexLt b c = true → lexLt a c = true
  | [], [], _, hab, _ => by simp [lexLt] at hab
  | [], _ :: _, [], _, hbc => by simp [lexLt] at hbc
  | [], _ :: _, _ :: _, _, _ => by simp [lexLt]
  | _ :: _, [], _, hab, _ => by simp [lexLt] at hab
  | _ :: _, _ :: _, [], _, hbc => by simp [lexLt] at hbc
  | x :: xs, y :: ys, z :: zs, hab, hbc => by
    simp only [lexLt] at hab hbc ⊢
    rcases Nat.lt_trichotomy x y with hxy | hxy | hxy
    · rcases Nat.lt_trichotomy y z with hyz | hyz | hyz
      · simp [Nat.lt_trans hxy hyz]
      · subst hyz
        simp [hxy]
      · simp [show ¬ y < z by omega, hyz] at hbc
    · subst hxy
      rcases Nat.lt_trichotomy x z with hxz | hxz | hxz
      · simp [hxz]
      · subst hxz
        simp only [Nat.lt_irrefl, if_false] at hab hbc ⊢
        exact lexLt_trans hab hbc
      · simp [show ¬ x < z by omega, hxz] at hbc
    · simp [show ¬ x < y by omega, hxy] at hab

theorem lexLt_total : ∀ (a b : Bytes), a = b ∨ lexLt a b = true ∨ lexLt b a = true
  | [], [] => Or.inl rfl
  | [], _ :: _ => Or.inr (Or.inl (by simp [lexLt]))
  | _ :: _, [] => Or.inr (Or.inr (by simp [lexLt]))
  | x :: xs, y :: ys => by
    rcases Nat.lt_trichotomy x y with hxy | hxy | hxy
    · exact Or.inr (Or.inl (by simp [lexLt, hxy]))
    · subst hxy
      rcases lexLt_total xs ys with h | h | h
      · exact Or.inl (by rw [h])
      · exact Or.inr (Or.inl (by simp [lexLt, h]))
      · exact Or.inr (Or.inr (by simp [lexLt, h]))
    · exact Or.inr (Or.inr (by simp [lexLt, hxy]))

theorem lexLt_asymm {a b : Bytes} (h : lexLt a b = true) : lexLt b a = false := by
  by_contra hba
  have hba' : lexLt b a = true := by
    cases hb : lexLt b a
    · exact absurd hb hba
    · rfl
  have := lexLt_trans h hba'
  rw [lexLt_irrefl] at this
  exact Bool.false_ne_true this

theorem lexLt_ne {a b : Bytes} (h : lexLt a b = true) : a ≠ b := by
  rintro rfl
  rw [lexLt_irrefl] at h
  exact Bool.false_ne_true h

/-- Modelled from the spec: `threaded_rbtree_find_path_for_multi` followed by
`threaded_rbtree_insert` (source lines 143–145) places the new node after every
node whose tag is `≥` its own — the upper-bound position of the descending
(`std::greater<uint64_t>`) order, so duplicates land in insertion order
(§4.1, `insert_multi`). The same primitive runs inside `init_value`
(source line 128) where the chain is still empty. -/
def chainInsertMulti (n : RepNode) : Chain → Chain
  | [] => [n]
  | x :: xs => if n.tag ≤ x.tag then x :: chainInsertMulti n xs else n :: x :: xs

/-- Modelled from the spec: `threaded_rbtree_equal_unique` (§4.1) returns a
node carrying the queried tag or `NIL`; `Contains` only compares the result
against `NIL`, so the model keeps the existence bit. -/
def chainHasTag (c : Chain) (τ : Nat) : Bool := c.any fun n => decide (n.tag = τ)

/-- Modelled from the spec: `threaded_rbtree_lower_bound` under the descending
(`std::greater<uint64_t>`) order yields the first in-order node whose tag is
`≤` the query tag (§4.1); the in-order walk from that node is the remaining
suffix of the descending node sequence. -/
def chainLowerBound (c : Chain) (τ : Nat) : Chain :=
  c.dropWhile fun n => decide (τ < n.tag)

theorem chainInsertMulti_perm (n : RepNode) (c : Chain) :
    List.Perm (chainInsertMulti n c) (n :: c) := by
  induction c with
  | nil => rfl
  | cons x xs ih =>
    by_cases h : n.tag ≤ x.tag
    · simp only [chainInsertMulti, if_pos h]
      exact (ih.cons x).trans (List.Perm.swap n x xs)
    · simp [chainInsertMulti, if_neg h]

theorem chainInsertMulti_mem {y n : RepNode} {c : Chain}
    (h : y ∈ chainInsertMulti n c) : y = n ∨ y ∈ c := by
  have := (chainInsertMulti_perm n c).mem_iff.mp h
  simpa using this

theorem chainInsertMulti_ne_nil (n : RepNode) (c : Chain) :
    chainInsertMulti n c ≠ [] := by
  cases c with
  | nil => simp [chainInsertMulti]
  | cons x xs =>
    by_cases h : n.tag ≤ x.tag <;> simp [chainInsertMulti, h]

/-- Inserting at the multi (upper-bound) position preserves the non-strict
descending sortedness of a chain. -/
theorem chainInsertMulti_sorted {c : Chain}
    (hs : c.Pairwise fun m n => n.tag ≤ m.tag) (n : RepNode) :
    (chainInsertMulti n c).Pairwise fun m n => n.tag ≤ m.tag := by
  induction c with
  | nil => simp [chainInsertMulti]
  | cons x xs ih =>
    rcases List.pairwise_cons.mp hs with ⟨hx, hxs⟩
    by_cases h : n.tag ≤ x.tag
    · simp only [chainInsertMulti, if_pos h]
      refine List.pairwise_cons.mpr ⟨?_, ih hxs⟩
      intro y hy
      rcases chainInsertMulti_mem hy with rfl | hy'
      · exact h
      · exact hx y hy'
    · simp only [chainInsertMulti, if_neg h]
      refine List.pairwise_cons.mpr ⟨?_, hs⟩
      intro y hy
      rcases List.mem_cons.mp hy with rfl | hy'
      · show y.tag ≤ n.tag
        omega
      · have hyx : y.tag ≤ x.tag := hx y hy'
        show y.tag ≤ n.tag
        omega

/-- Inserting a node whose tag is fresh preserves strict descending
sortedness: the shard-locked splice path and the `init_value` path of
`Insert` both keep invariant I3. -/
theorem chainInsertMulti_sorted_strict {c : Chain}
    (hs : c.Pairwise fun m n => n.tag < m.tag) {n : RepNode}
    (hfresh : ∀ m ∈ c, m.tag ≠ n.tag) :
    (chainInsertMulti n c).Pairwise fun m n => n.tag < m.tag := by
  induction c with
  | nil => simp [chainInsertMulti]
  | cons x xs ih =>
    rcases List.pairwise_cons.mp hs with ⟨hx, hxs⟩
    by_cases h : n.tag ≤ x.tag
    · simp only [chainInsertMulti, if_pos h]
      refine List.pairwise_cons.mpr ⟨?_, ih hxs (fun m hm => hfresh m (by simp [hm]))⟩
      intro y hy
      rcases chainInsertMulti_mem hy with h1 | hy'
      · have hne : x.tag ≠ n.tag := hfresh x (by simp)
        show y.tag < x.tag
        rw [h1]
        omega
      · exact hx y hy'
    · simp only [chainInsertMulti, if_neg h]
      refine List.pairwise_cons.mpr ⟨?_, hs⟩
      intro y hy
      rcases List.mem_cons.mp hy with rfl | hy'
      · show y.tag < n.tag
        omega
      · have hyx : y.tag < x.tag := hx y hy'
        show y.tag < n.tag
        omega

/-- On a descending-sorted chain, the walk `Get` performs — start at
`lower_bound(tag)` and keep moving next — visits exactly the nodes whose tag
is `≤` the query tag. -/
theorem chainLowerBound_eq_filter {c : Chain}
    (hs : c.Pairwise fun m n => n.tag ≤ m.tag) (τ : Nat) :
    chainLowerBound c τ = c.filter fun n => decide (n.tag ≤ τ) := by
  induction c with
  | nil => rfl
  | cons x xs ih =>
    rcases List.pairwise_cons.mp hs with ⟨hx, hxs⟩
    by_cases h : τ < x.tag
    · have hx' : ¬ x.tag ≤ τ := by omega
      have h1 : chainLowerBound (x :: xs) τ = chainLowerBound xs τ := by
        simp [chainLowerBound, List.dropWhile_cons, h]
      have h2 : (x :: xs).filter (fun n => decide (n.tag ≤ τ))
          = xs.filter (fun n => decide (n.tag ≤ τ)) := by
        simp [List.filter_cons, hx']
      rw [h1, h2, ih hxs]
    · have hx2 : x.tag ≤ τ := by omega
      have h1 : chainLowerBound (x :: xs) τ = x :: xs := by
        simp [chainLowerBound, List.dropWhile_cons, h]
      have h2 : (x :: xs).filter (fun n => decide (n.tag ≤ τ)) = x :: xs := by
        have hall : xs.filter (fun n => decide (n.tag ≤ τ)) = xs := by
          apply List.filter_eq_self.mpr
          intro a ha
          have haa : a.tag ≤ x.tag := hx a ha
          simp only [decide_eq_true_eq]
          omega
        rw [List.filter_cons, if_pos (by simpa using hx2), hall]
      rw [h1, h2]

/-- One patricia trie of the trie vector: the block size its arena was
constructed with (source lines 90 and 151–153), and — modelled from the spec
(§4.2) — the trie's word set together with the version chain each payload
slot points to, kept in lexicographic word order, which is how the trie's
lex-iterator enumerates it. -/
structure Trie where
  blockSize : Nat
  entries : List (Bytes × Chain)
deriving DecidableEq

/-- Whether a word is present: the success bit of `PatriciaTrie::lookup`
(modelled from the spec, §4.2). -/
def hasKeyE (k : Bytes) : List (Bytes × Chain) → Bool
  | [] => false
  | p :: rest => if p.1 = k then true else hasKeyE k rest

/-- The chain a present word's payload slot points to (modelled from the
spec, §4.2: the payload is the chain-header pointer published by
`init_value`). -/
def chainOfE (k : Bytes) : List (Bytes × Chain) → Chain
  | [] => []
  | p :: rest => if p.1 = k then p.2 else chainOfE k rest

/-- The state change a successful `Insert` step performs on one trie's
entries: a fresh word is published with the one-node chain built by
`init_value` (source lines 122–130), an existing word's chain receives the
node at its multi position — the shard-locked splice of source
lines 140–146. -/
def entriesInsert (k : Bytes) (n : RepNode) : List (Bytes × Chain) → List (Bytes × Chain)
  | [] => [(k, [n])]
  | p :: rest =>
    if p.1 = k then (p.1, chainInsertMulti n p.2) :: rest
    else if lexLt k p.1 then (k, [n]) :: p :: rest
    else p :: entriesInsert k n rest

def Trie.hasKey (t : Trie) (k : Bytes) : Bool := hasKeyE k t.entries

def Trie.chainOf (t : Trie) (k : Bytes) : Chain := chainOfE k t.entries

/-- Modelled from the spec: `PatriciaTrie::insert` (§4.2) returns `existed`
for a word already present (no arena allocation is needed; the caller then
splices under the shard lock), publishes a fresh one-node chain via
`init_value` for a new word, and reports `arena_full` (`none` here) when a
new word does not fit the trie's arena; the arena of a trie with block size
`b` accommodates `b` words (§4.4: a geometrically larger arena admits
geometrically more keys). -/
def Trie.insertNode (t : Trie) (k : Bytes) (n : RepNode) : Option Trie :=
  if t.hasKey k then some ⟨t.blockSize, entriesInsert k n t.entries⟩
  else if t.entries.length < t.blockSize then some ⟨t.blockSize, entriesInsert k n t.entries⟩
  else none

/-- The loop of `PTrieRep::Insert` (source lines 136–155): walk the trie
vector from index 0; a trie that accepts the node ends the loop; `arena_full`
on a non-last trie moves to the next one; `arena_full` on the last trie
appends a new trie whose arena block size is
`allocator_->BlockSize() << trie_vec_.size()` — the vector's size before the
append — and retries there. `done` is the already-visited prefix. `none`
models the source's unbounded retry when the appended trie's arena also
refuses the key, which cannot happen for a positive base block size. -/
def insertGo (base : Nat) (k : Bytes) (n : RepNode) :
    List Trie → List Trie → Option (List Trie)
  | _, [] => none
  | done, t :: rest =>
    match t.insertNode k n, rest with
    | some t', _ => some (done ++ t' :: rest)
    | none, [] =>
      match Trie.insertNode ⟨base <<< (done.length + 1), []⟩ k n with
      | some f => some (done ++ [t, f])
      | none => none
    | none, r :: rs => insertGo base k n (done ++ [t]) (r :: rs)

/-- The representation state of `PTrieRep`: the allocator's base block size,
the shard count (the length of `mutex_`), the trie vector, the `immutable_`
flag and `num_entries_`. -/
structure PTrieRep where
  base : Nat
  shards : Nat
  tries : List Trie
  immutable : Bool
  numEntries : Nat
deriving DecidableEq

/-- The constructor (source lines 79–91): `sharding` mutexes, a trie vector
holding one trie whose arena block size is the allocator's block size, the
representation mutable and empty. -/
def PTrieRep.init (base shards : Nat) : PTrieRep := ⟨base, shards, [⟨base, []⟩], false, 0⟩

/-- One encoded record passed to `Insert`: its user key, tag and value, as
decoded by the varint/fixed64 collaborator codec (source lines 102–110). -/
structure InsOp where
  key : Bytes
  tag : Nat
  val : Bytes
deriving DecidableEq

/-- `PTrieRep::Insert` (source lines 101–158): allocate the node, run the
trie-vector loop, free the handle and bump `num_entries_`. -/
def PTrieRep.insert (st : PTrieRep) (op : InsOp) : Option PTrieRep :=
  match insertGo st.base op.key ⟨op.tag, op.val⟩ [] st.tries with
  | some ts => some ⟨st.base, st.shards, ts, st.immutable, st.numEntries + 1⟩
  | none => none

/-- A sequence of `Insert` calls against a freshly constructed
representation. -/
def applyOps (base shards : Nat) (ops : List InsOp) : Option PTrieRep :=
  ops.foldl (fun acc op => acc.bind fun st => st.insert op) (some (PTrieRep.init base shards))

/-- The scan shared by `Contains` (source lines 165–184) and `Get` (source
lines 212–234): probe the tries in index order and stop at the first one
whose `lookup` of the user key succeeds, returning the chain its payload
points to. -/
def firstChain (k : Bytes) : List Trie → Option Chain
  | [] => none
  | t :: ts => if t.hasKey k then some (t.chainOf k) else firstChain k ts

/-- `PTrieRep::Contains` on a trie vector (source lines 161–186). The first
component is the returned boolean: at the first trie containing the user
key, whether `equal_unique(root, tag)` is not `NIL`; `false` when no trie
contains it. The second component counts shard-mutex acquisitions: the hit
branch locks the chain's shard unless `immutable_` is set. -/
def containsOnTries (ts : List Trie) (immut : Bool) (k : Bytes) (τ : Nat) : Bool × Nat :=
  match firstChain k ts with
  | none => (false, 0)
  | some c => (chainHasTag c τ, if immut then 0 else 1)

def PTrieRep.contains (st : PTrieRep) (k : Bytes) (τ : Nat) : Bool × Nat :=
  containsOnTries st.tries st.immutable k τ

/-- The invocation sequence of the `Get` callback on one chain (source
lines 222–225): the walk invokes the callback on each node from the lower
bound onward and stops right after the first invocation that returns
`false`. The result lists the nodes the callback was invoked on. -/
def runCb (cb : RepNode → Bool) : Chain → List RepNode
  | [] => []
  | n :: ns => if cb n then n :: runCb cb ns else [n]

/-- `PTrieRep::Get` on a trie vector (source lines 205–235). The first
component lists the nodes the callback was invoked on; only the first trie
whose lookup succeeds is probed (the loop breaks after it). The second
component counts shard-mutex acquisitions: the hit branch locks the chain's
shard unless `immutable_` is set. -/
def getOnTries (ts : List Trie) (immut : Bool) (k : Bytes) (τ : Nat)
    (cb : RepNode → Bool) : List RepNode × Nat :=
  match firstChain k ts with
  | none => ([], 0)
  | some c => (runCb cb (chainLowerBound c τ), if immut then 0 else 1)

def PTrieRep.get (st : PTrieRep) (k : Bytes) (τ : Nat) (cb : RepNode → Bool) :
    List RepNode × Nat :=
  getOnTries st.tries st.immutable k τ cb

/-- `PTrieRep::MarkReadOnly` (source lines 188–190): set `immutable_`. -/
def markReadOnly (st : PTrieRep) : PTrieRep :=
  ⟨st.base, st.shards, st.tries, true, st.numEntries⟩

/-- `PTrieRep::ApproximateNumEntries` (source lines 200–203): `return 0;`
whatever the arguments and the state. -/
def approximateNumEntries (_st : PTrieRep) (_startIkey _endIkey : Bytes) : Nat := 0

/-- All records of one trie's entries, in iteration order: for each word in
lex order, its chain's nodes in descending-tag order. -/
def recordsOfEntries : List (Bytes × Chain) → List (Bytes × RepNode)
  | [] => []
  | p :: rest => (p.2.map fun n => (p.1, n)) ++ recordsOfEntries rest

def Trie.records (t : Trie) : List (Bytes × RepNode) := recordsOfEntries t.entries

/-- All records held by a trie vector, trie by trie. -/
def triesRecords : List Trie → List (Bytes × RepNode)
  | [] => []
  | t :: ts => t.records ++ triesRecords ts

/-- The record an insert contributes. -/
def InsOp.record (op : InsOp) : Bytes × RepNode := (op.key, ⟨op.tag, op.val⟩)

theorem recordsOfEntries_append (a b : List (Bytes × Chain)) :
    recordsOfEntries (a ++ b) = recordsOfEntries a ++ recordsOfEntries b := by
  induction a with
  | nil => rfl
  | cons p rest ih => simp [recordsOfEntries, ih]

theorem triesRecords_append (a b : List Trie) :
    triesRecords (a ++ b) = triesRecords a ++ triesRecords b := by
  induction a with
  | nil => rfl
  | cons t ts ih => simp [triesRecords, ih]

theorem entriesInsert_records_perm (k : Bytes) (n : RepNode) (es : List (Bytes × Chain)) :
    List.Perm (recordsOfEntries (entriesInsert k n es)) ((k, n) :: recordsOfEntries es) := by
  induction es with
  | nil => simp [entriesInsert, recordsOfEntries]
  | cons p rest ih =>
    by_cases hk : p.1 = k
    · simp only [entriesInsert, if_pos hk, recordsOfEntries]
      subst hk
      have h1 := List.Perm.append_right (recordsOfEntries rest)
        ((chainInsertMulti_perm n p.2).map fun m => (p.1, m))
      simpa using h1
    · by_cases hlt : lexLt k p.1
      · simp [entriesInsert, hk, hlt, recordsOfEntries]
      · simp only [entriesInsert, if_neg hk, if_neg hlt, recordsOfEntries]
        refine List.Perm.trans (List.Perm.append_left _ ih) ?_
        exact List.perm_middle

theorem entriesInsert_key_mem {k : Bytes} {n : RepNode} {es : List (Bytes × Chain)}
    {q : Bytes × Chain} (h : q ∈ entriesInsert k n es) :
    q.1 = k ∨ ∃ p ∈ es, q.1 = p.1 := by
  induction es with
  | nil =>
    simp only [entriesInsert, List.mem_singleton] at h
    exact Or.inl (by rw [h])
  | cons p rest ih =>
    by_cases hk : p.1 = k
    · simp only [entriesInsert, if_pos hk] at h
      rcases List.mem_cons.mp h with h1 | h1
      · exact Or.inl (by rw [h1, ← hk])
      · exact Or.inr ⟨q, List.mem_cons_of_mem _ h1, rfl⟩
    · by_cases hlt : lexLt k p.1
      · simp only [entriesInsert, if_neg hk, if_pos hlt] at h
        rcases List.mem_cons.mp h with h1 | h1
        · exact Or.inl (by rw [h1])
        · exact Or.inr ⟨q, h1, rfl⟩
      · simp only [entriesInsert, if_neg hk, if_neg hlt] at h
        rcases List.mem_cons.mp h with h1 | h1
        · exact Or.inr ⟨p, List.mem_cons_self p rest, by rw [h1]⟩
        · rcases ih h1 with h2 | ⟨p', hp', h2⟩
          · exact Or.inl h2
          · exact Or.inr ⟨p', List.mem_cons_of_mem _ hp', h2⟩

theorem entriesInsert_sortedKeys {es : List (Bytes × Chain)}
    (hs : es.Pairwise fun a b => lexLt a.1 b.1 = true) (k : Bytes) (n : RepNode) :
    (entriesInsert k n es).Pairwise fun a b => lexLt a.1 b.1 = true := by
  induction es with
  | nil => simp [entriesInsert]
  | cons p rest ih =>
    rcases List.pairwise_cons.mp hs with ⟨hp, hrest⟩
    by_cases hk : p.1 = k
    · simp only [entriesInsert, if_pos hk]
      exact List.pairwise_cons.mpr ⟨fun q hq => hp q hq, hrest⟩
    · by_cases hlt : lexLt k p.1
      · simp only [entriesInsert, if_neg hk, if_pos hlt]
        refine List.pairwise_cons.mpr ⟨?_, hs⟩
        intro q hq
        rcases List.mem_cons.mp hq with rfl | hq'
        · exact hlt
        · exact lexLt_trans hlt (hp q hq')
      · simp only [entriesInsert, if_neg hk, if_neg hlt]
        refine List.pairwise_cons.mpr ⟨?_, ih hrest⟩
        intro q hq
        have hpk : lexLt p.1 k = true := by
          rcases lexLt_total p.1 k with h1 | h1 | h1
          · exact absurd h1 hk
          · exact h1
          · exact absurd h1 (by simp [hlt])
        rcases entriesInsert_key_mem hq with h1 | ⟨p', hp', h1⟩
        · rw [h1]
          exact hpk
        · rw [h1]
          exact hp p' hp'

theorem entriesInsert_chains_ne_nil {es : List (Bytes × Chain)}
    (hne : ∀ p ∈ es, p.2 ≠ []) (k : Bytes) (n : RepNode) :
    ∀ p ∈ entriesInsert k n es, p.2 ≠ [] := by
  induction es with
  | nil =>
    intro p hp
    simp only [entriesInsert, List.mem_singleton] at hp
    simp [hp]
  | cons q rest ih =>
    intro p hp
    by_cases hk : q.1 = k
    · simp only [entriesInsert, if_pos hk] at hp
      rcases List.mem_cons.mp hp with rfl | hp'
      · exact chainInsertMulti_ne_nil n q.2
      · exact hne p (List.mem_cons_of_mem _ hp')
    · by_cases hlt : lexLt k q.1
      · simp only [entriesInsert, if_neg hk, if_pos hlt] at hp
        rcases List.mem_cons.mp hp with rfl | hp'
        · simp
        · exact hne p hp'
      · simp only [entriesInsert, if_neg hk, if_neg hlt] at hp
        rcases List.mem_cons.mp hp with rfl | hp'
        · exact hne p (List.mem_cons_self _ _)
        · exact ih (fun q' hq' => hne q' (List.mem_cons_of_mem _ hq')) p hp'

theorem entriesInsert_chains_sorted {es : List (Bytes × Chain)}
    (hso : ∀ p ∈ es, p.2.Pairwise fun m n => n.tag ≤ m.tag) (k : Bytes) (n : RepNode) :
    ∀ p ∈ entriesInsert k n es, p.2.Pairwise fun m n => n.tag ≤ m.tag := by
  induction es with
  | nil =>
    intro p hp
    simp only [entriesInsert, List.mem_singleton] at hp
    simp [hp]
  | cons q rest ih =>
    intro p hp
    by_cases hk : q.1 = k
    · simp only [entriesInsert, if_pos hk] at hp
      rcases List.mem_cons.mp hp with rfl | hp'
      · exact chainInsertMulti_sorted (hso q (List.mem_cons_self _ _)) n
      · exact hso p (List.mem_cons_of_mem _ hp')
    · by_cases hlt : lexLt k q.1
      · simp only [entriesInsert, if_neg hk, if_pos hlt] at hp
        rcases List.mem_cons.mp hp with rfl | hp'
        · simp
        · exact hso p hp'
      · simp only [entriesInsert, if_neg hk, if_neg hlt] at hp
        rcases List.mem_cons.mp hp with rfl | hp'
        · exact hso p (List.mem_cons_self _ _)
        · exact ih (fun q' hq' => hso q' (List.mem_cons_of_mem _ hq')) p hp'

/-- Well-formedness of one trie's entries: words in strict lex order, every
chain non-empty (a chain is created holding its first node) and sorted in
non-strict descending tag order. -/
def entriesWF (es : List (Bytes × Chain)) : Prop :=
  es.Pairwise (fun a b => lexLt a.1 b.1 = true) ∧
  (∀ p ∈ es, p.2 ≠ []) ∧
  (∀ p ∈ es, p.2.Pairwise fun m n => n.tag ≤ m.tag)

theorem entriesWF_nil : entriesWF [] := ⟨List.Pairwise.nil, by simp, by simp⟩

theorem entriesWF_insert {es : List (Bytes × Chain)} (h : entriesWF es)
    (k : Bytes) (n : RepNode) : entriesWF (entriesInsert k n es) :=
  ⟨entriesInsert_sortedKeys h.1 k n, entriesInsert_chains_ne_nil h.2.1 k n,
   entriesInsert_chains_sorted h.2.2 k n⟩

theorem insertNode_some {t t' : Trie} {k : Bytes} {n : RepNode}
    (h : t.insertNode k n = some t') :
    t' = ⟨t.blockSize, entriesInsert k n t.entries⟩ := by
  unfold Trie.insertNode at h
  by_cases h1 : t.hasKey k
  · rw [if_pos h1] at h
    exact (Option.some_injective _ h).symm
  · rw [if_neg h1] at h
    by_cases h2 : t.entries.length < t.blockSize
    · rw [if_pos h2] at h
      exact (Option.some_injective _ h).symm
    · rw [if_neg h2] at h
      exact absurd h (by simp)

theorem records_perm_step {done rest : List Trie} {t t' : Trie} {k : Bytes} {n : RepNode}
    (htrec : List.Perm t'.records ((k, n) :: t.records)) :
    List.Perm (triesRecords (done ++ t' :: rest))
      ((k, n) :: triesRecords (done ++ t :: rest)) := by
  rw [triesRecords_append, triesRecords_append]
  simp only [triesRecords]
  refine List.Perm.trans (List.Perm.append_left _ (List.Perm.append_right _ htrec)) ?_
  simp only [List.cons_append]
  exact List.perm_middle

theorem insertGo_records {base : Nat} {k : Bytes} {n : RepNode} :
    ∀ {ts done ts' : List Trie}, insertGo base k n done ts = some ts' →
    List.Perm (triesRecords ts') ((k, n) :: triesRecords (done ++ ts)) := by
  intro ts
  induction ts with
  | nil =>
    intro done ts' h
    simp [insertGo] at h
  | cons t rest ih =>
    intro done ts' h
    cases rest with
    | nil =>
      rcases hins : t.insertNode k n with _ | t'
      · rcases hf : Trie.insertNode ⟨base <<< (done.length + 1), []⟩ k n with _ | f
        · simp [insertGo, hins, hf] at h
        · simp only [insertGo, hins, hf, Option.some.injEq] at h
          subst h
          have hfrec : f.records = [(k, n)] := by
            rw [insertNode_some hf]
            simp [Trie.records, entriesInsert, recordsOfEntries]
          simp only [triesRecords_append, triesRecords, hfrec, List.append_nil]
          have h2 := @List.perm_middle (Bytes × RepNode) (k, n)
            (triesRecords done ++ t.records) []
          simpa [List.append_assoc] using h2
      · simp only [insertGo, hins, Option.some.injEq] at h
        subst h
        refine records_perm_step ?_
        rw [insertNode_some hins]
        exact entriesInsert_records_perm k n t.entries
    | cons r rs =>
      rcases hins : t.insertNode k n with _ | t'
      · have h' : insertGo base k n (done ++ [t]) (r :: rs) = some ts' := by
          simpa only [insertGo, hins] using h
        have h2 := ih h'
        simpa [List.append_assoc] using h2
      · simp only [insertGo, hins, Option.some.injEq] at h
        subst h
        refine records_perm_step ?_
        rw [insertNode_some hins]
        exact entriesInsert_records_perm k n t.entries

theorem insertGo_wf {base : Nat} {k : Bytes} {n : RepNode} :
    ∀ {ts done ts' : List Trie}, (∀ t ∈ done ++ ts, entriesWF t.entries) →
    insertGo base k n done ts = some ts' → ∀ t ∈ ts', entriesWF t.entries := by
  intro ts
  induction ts with
  | nil =>
    intro done ts' _ h
    simp [insertGo] at h
  | cons t rest ih =>
    intro done ts' hwf h
    cases rest with
    | nil =>
      rcases hins : t.insertNode k n with _ | t'
      · rcases hf : Trie.insertNode ⟨base <<< (done.length + 1), []⟩ k n with _ | f
        · simp [insertGo, hins, hf] at h
        · simp only [insertGo, hins, hf, Option.some.injEq] at h
          subst h
          intro u hu
          rcases List.mem_append.mp hu with hu1 | hu1
          · exact hwf u (List.mem_append.mpr (Or.inl hu1))
          · rcases List.mem_cons.mp hu1 with rfl | hu2
            · exact hwf u (List.mem_append.mpr (Or.inr (by simp)))
            · rcases List.mem_singleton.mp hu2 with rfl
              rw [insertNode_some hf]
              exact entriesWF_insert entriesWF_nil k n
      · simp only [insertGo, hins, Option.some.injEq] at h
        subst h
        intro u hu
        rcases List.mem_append.mp hu with hu1 | hu1
        · exact hwf u (List.mem_append.mpr (Or.inl hu1))
        · rcases List.mem_cons.mp hu1 with rfl | hu2
          · rw [insertNode_some hins]
            exact entriesWF_insert (hwf t (List.mem_append.mpr (Or.inr (by simp)))) k n
          · simp at hu2
    | cons r rs =>
      rcases hins : t.insertNode k n with _ | t'
      · have h' : insertGo base k n (done ++ [t]) (r :: rs) = some ts' := by
          simpa only [insertGo, hins] using h
        refine ih ?_ h'
        intro u hu
        refine hwf u ?_
        rcases List.mem_append.mp hu with hu1 | hu1
        · rcases List.mem_append.mp hu1 with hu2 | hu2
          · exact List.mem_append.mpr (Or.inl hu2)
          · rcases List.mem_singleton.mp hu2 with rfl
            exact List.mem_append.mpr (Or.inr (by simp))
        · exact List.mem_append.mpr (Or.inr (List.mem_cons_of_mem _ hu1))
      · simp only [insertGo, hins, Option.some.injEq] at h
        subst h
        intro u hu
        rcases List.mem_append.mp hu with hu1 | hu1
        · exact hwf u (List.mem_append.mpr (Or.inl hu1))
        · rcases List.mem_cons.mp hu1 with rfl | hu2
          · rw [insertNode_some hins]
            exact entriesWF_insert (hwf t (List.mem_append.mpr (Or.inr (by simp)))) k n
          · exact hwf u (List.mem_append.mpr (Or.inr (List.mem_cons_of_mem _ hu2)))

/-- Invariant of claim C6: the trie vector's arena block sizes form the
geometric sequence `base <<< 0, base <<< 1, …`. -/
def geometricSizes (base : Nat) (ts : List Trie) : Prop :=
  ts.map Trie.blockSize = (List.range ts.length).map fun i => base <<< i

theorem insertGo_blockSizes {base : Nat} {k : Bytes} {n : RepNode} :
    ∀ {ts done ts' : List Trie}, insertGo base k n done ts = some ts' →
    ts'.map Trie.blockSize = (done ++ ts).map Trie.blockSize ∨
    ts'.map Trie.blockSize
      = (done ++ ts).map Trie.blockSize ++ [base <<< (done ++ ts).length] := by
  intro ts
  induction ts with
  | nil =>
    intro done ts' h
    simp [insertGo] at h
  | cons t rest ih =>
    intro done ts' h
    cases rest with
    | nil =>
      rcases hins : t.insertNode k n with _ | t'
      · rcases hf : Trie.insertNode ⟨base <<< (done.length + 1), []⟩ k n with _ | f
        · simp [insertGo, hins, hf] at h
        · simp only [insertGo, hins, hf, Option.some.injEq] at h
          subst h
          right
          have hfbs : f.blockSize = base <<< (done.length + 1) := by
            rw [insertNode_some hf]
          simp [hfbs, List.append_assoc]
      · simp only [insertGo, hins, Option.some.injEq] at h
        subst h
        left
        have : t'.blockSize = t.blockSize := by
          rw [insertNode_some hins]
        simp [this]
    | cons r rs =>
      rcases hins : t.insertNode k n with _ | t'
      · have h' : insertGo base k n (done ++ [t]) (r :: rs) = some ts' := by
          simpa only [insertGo, hins] using h
        rcases ih h' with h2 | h2
        · left
          rw [h2]
          simp
        · right
          rw [h2]
          simp [List.append_assoc]
      · simp only [insertGo, hins, Option.some.injEq] at h
        subst h
        left
        have : t'.blockSize = t.blockSize := by
          rw [insertNode_some hins]
        simp [this]

theorem insert_some {st st' : PTrieRep} {op : InsOp} (h : st.insert op = some st') :
    insertGo st.base op.key ⟨op.tag, op.val⟩ [] st.tries = some st'.tries ∧
    st'.base = st.base ∧ st'.shards = st.shards ∧ st'.immutable = st.immutable ∧
    st'.numEntries = st.numEntries + 1 := by
  unfold PTrieRep.insert at h
  rcases hgo : insertGo st.base op.key ⟨op.tag, op.val⟩ [] st.tries with _ | ts
  · rw [hgo] at h
    exact absurd h (by simp)
  · rw [hgo] at h
    have := Option.some_injective _ h
    rw [← this]
    exact ⟨rfl, rfl, rfl, rfl, rfl⟩

theorem foldl_insert_none (ops : List InsOp) :
    ops.foldl (fun acc op => acc.bind fun s => s.insert op) (none : Option PTrieRep)
      = none := by
  induction ops with
  | nil => rfl
  | cons op rest ih => simpa only [List.foldl_cons, Option.none_bind] using ih

theorem applyOps_invariant :
    ∀ (ops : List InsOp) (st₀ st : PTrieRep),
    (∀ t ∈ st₀.tries, entriesWF t.entries) →
    ops.foldl (fun acc op => acc.bind fun s => s.insert op) (some st₀) = some st →
    (∀ t ∈ st.tries, entriesWF t.entries) ∧
    List.Perm (triesRecords st.tries) (triesRecords st₀.tries ++ ops.map InsOp.record) ∧
    st.base = st₀.base ∧ st.shards = st₀.shards ∧ st.immutable = st₀.immutable := by
  intro ops
  induction ops with
  | nil =>
    intro st₀ st hwf h
    simp only [List.foldl_nil, Option.some.injEq] at h
    subst h
    exact ⟨hwf, by simp, rfl, rfl, rfl⟩
  | cons op rest ih =>
    intro st₀ st hwf h
    simp only [List.foldl_cons, Option.some_bind] at h
    rcases hins : st₀.insert op with _ | st₁
    · rw [hins] at h
      rw [foldl_insert_none] at h
      exact absurd h (by simp)
    · rw [hins] at h
      rcases insert_some hins with ⟨hgo, hbase, hshards, himm, _⟩
      have hwf1 : ∀ t ∈ st₁.tries, entriesWF t.entries := by
        refine insertGo_wf ?_ hgo
        simpa using hwf
      have hrec1 : List.Perm (triesRecords st₁.tries)
          (op.record :: triesRecords st₀.tries) := by
        have := insertGo_records hgo
        simpa [InsOp.record] using this
      rcases ih st₁ st hwf1 h with ⟨hwf2, hrec2, hb2, hs2, hi2⟩
      refine ⟨hwf2, ?_, by rw [hb2, hbase], by rw [hs2, hshards], by rw [hi2, himm]⟩
      refine hrec2.trans ?_
      refine List.Perm.trans (List.Perm.append_right _ hrec1) ?_
      simp only [List.cons_append, List.map_cons]
      exact (List.perm_middle).symm

/-- The invariants `applyOps` guarantees: every trie well formed, the records
held being exactly the inserted ones, and the constructor's fields
undisturbed. -/
theorem applyOps_wf {base shards : Nat} {ops : List InsOp} {st : PTrieRep}
    (h : applyOps base shards ops = some st) :
    (∀ t ∈ st.tries, entriesWF t.entries) ∧
    List.Perm (triesRecords st.tries) (ops.map InsOp.record) ∧
    st.base = base ∧ st.shards = shards ∧ st.immutable = false := by
  have h0 : ∀ t ∈ (PTrieRep.init base shards).tries, entriesWF t.entries := by
    intro t ht
    simp only [PTrieRep.init, List.mem_singleton] at ht
    subst ht
    exact entriesWF_nil
  rcases applyOps_invariant ops (PTrieRep.init base shards) st h0 h with
    ⟨hwf, hrec, hb, hs, hi⟩
  refine ⟨hwf, ?_, hb, hs, hi⟩
  simpa [PTrieRep.init, triesRecords, Trie.records, recordsOfEntries] using hrec

theorem applyOps_geometric {base shards : Nat} {ops : List InsOp} {st : PTrieRep}
    (h : applyOps base shards ops = some st) : geometricSizes base st.tries := by
  suffices haux : ∀ (ops' : List InsOp) (st₀ st' : PTrieRep), st₀.base = base →
      geometricSizes base st₀.tries →
      ops'.foldl (fun acc op => acc.bind fun s => s.insert op) (some st₀) = some st' →
      geometricSizes base st'.tries by
    refine haux ops (PTrieRep.init base shards) st rfl ?_ h
    simp [geometricSizes, PTrieRep.init, List.range_succ]
  intro ops'
  induction ops' with
  | nil =>
    intro st₀ st' _ hg h'
    simp only [List.foldl_nil, Option.some.injEq] at h'
    subst h'
    exact hg
  | cons op rest ih =>
    intro st₀ st' hb hg h'
    simp only [List.foldl_cons, Option.some_bind] at h'
    rcases hins : st₀.insert op with _ | st₁
    · rw [hins] at h'
      rw [foldl_insert_none] at h'
      exact absurd h' (by simp)
    · rw [hins] at h'
      rcases insert_some hins with ⟨hgo, hbase, _, _, _⟩
      refine ih st₁ st' (by rw [hbase, hb]) ?_ h'
      rw [hb] at hgo
      rcases insertGo_blockSizes hgo with h2 | h2
      · simp only [List.nil_append] at h2
        have hlen : st₁.tries.length = st₀.tries.length := by
          have := congrArg List.length h2
          simpa using this
        unfold geometricSizes
        rw [h2, hlen]
        exact hg
      · simp only [List.nil_append] at h2
        have hlen : st₁.tries.length = st₀.tries.length + 1 := by
          have := congrArg List.length h2
          simpa using this
        unfold geometricSizes
        rw [h2, hlen, List.range_succ]
        unfold geometricSizes at hg
        simp [hg]

theorem records_sublist_of_mem_entries {k : Bytes} {c : Chain} {es : List (Bytes × Chain)}
    (h : (k, c) ∈ es) :
    List.Sublist (c.map fun n => (k, n)) (recordsOfEntries es) := by
  induction es with
  | nil => simp at h
  | cons p rest ih =>
    rcases List.mem_cons.mp h with h1 | h1
    · rw [← h1]
      simp only [recordsOfEntries]
      exact List.sublist_append_left _ _
    · refine (ih h1).trans ?_
      simp only [recordsOfEntries]
      exact List.sublist_append_right _ _

theorem records_sublist_of_mem_tries {t : Trie} {ts : List Trie} (h : t ∈ ts) :
    List.Sublist t.records (triesRecords ts) := by
  induction ts with
  | nil => simp at h
  | cons u us ih =>
    rcases List.mem_cons.mp h with rfl | h1
    · simp only [triesRecords]
      exact List.sublist_append_left _ _
    · refine (ih h1).trans ?_
      simp only [triesRecords]
      exact List.sublist_append_right _ _

theorem uniqueOps_nodup {ops : List InsOp}
    (hu : ops.Pairwise fun a b => a.key ≠ b.key ∨ a.tag ≠ b.tag) :
    ((ops.map InsOp.record).map fun r => (r.1, r.2.tag)).Nodup := by
  have h1 : (ops.map fun op => (op.key, op.tag)).Pairwise (· ≠ ·) := by
    rw [List.pairwise_map]
    refine List.Pairwise.imp ?_ hu
    intro a b hab hEq
    rcases hab with h2 | h2
    · exact h2 (congrArg Prod.fst hEq)
    · exact h2 (congrArg Prod.snd hEq)
  have h2 : (ops.map InsOp.record).map (fun r => (r.1, r.2.tag))
      = ops.map fun op => (op.key, op.tag) := by
    rw [List.map_map]
    rfl
  rw [h2]
  exact h1

theorem chain_tags_nodup {ts : List Trie} {ops : List InsOp}
    (hperm : List.Perm (triesRecords ts) (ops.map InsOp.record))
    (hu : ops.Pairwise fun a b => a.key ≠ b.key ∨ a.tag ≠ b.tag)
    {t : Trie} (ht : t ∈ ts) {k : Bytes} {c : Chain} (he : (k, c) ∈ t.entries) :
    (c.map RepNode.tag).Nodup := by
  have hnd : ((triesRecords ts).map fun r => (r.1, r.2.tag)).Nodup :=
    ((hperm.map _).nodup_iff).mpr (uniqueOps_nodup hu)
  have hsub : List.Sublist ((c.map fun n => (k, n)).map fun r => (r.1, r.2.tag))
      ((triesRecords ts).map fun r => (r.1, r.2.tag)) :=
    ((records_sublist_of_mem_entries he).trans (records_sublist_of_mem_tries ht)).map _
  have hnd2 := List.Nodup.sublist hsub hnd
  have heq : ((c.map fun n => (k, n)).map fun r => (r.1, r.2.tag))
      = (c.map RepNode.tag).map fun τ => (k, τ) := by
    rw [List.map_map, List.map_map]
    rfl
  rw [heq] at hnd2
  exact List.Nodup.of_map _ hnd2

theorem le_sorted_nodup_strict {c : Chain}
    (hs : c.Pairwise fun m n => n.tag ≤ m.tag)
    (hnd : (c.map RepNode.tag).Nodup) :
    c.Pairwise fun m n => n.tag < m.tag := by
  have hne : c.Pairwise fun m n => m.tag ≠ n.tag := (List.pairwise_map).mp hnd
  have hand := (List.pairwise_and_iff).mpr ⟨hs, hne⟩
  refine List.Pairwise.imp ?_ hand
  intro a b hab
  have h1 : b.tag ≤ a.tag := hab.1
  have h2 : a.tag ≠ b.tag := hab.2
  show b.tag < a.tag
  omega

/-- At every reachable state with a caller honouring the (user key, tag)
uniqueness contract I4, every version chain of every trie is strictly
descending in tag. -/
theorem applyOps_chains_strict {base shards : Nat} {ops : List InsOp} {st : PTrieRep}
    (hst : applyOps base shards ops = some st)
    (hu : ops.Pairwise fun a b => a.key ≠ b.key ∨ a.tag ≠ b.tag) :
    ∀ t ∈ st.tries, ∀ p ∈ t.entries, p.2.Pairwise fun m n => n.tag < m.tag := by
  rcases applyOps_wf hst with ⟨hwf, hperm, _, _, _⟩
  intro t ht p hp
  have hle := (hwf t ht).2.2 p hp
  have hp' : (p.1, p.2) ∈ t.entries := by
    rw [Prod.mk.eta]
    exact hp
  exact le_sorted_nodup_strict hle (chain_tags_nodup hperm hu ht hp')

theorem hasKeyE_false_of_not_mem {k : Bytes} {es : List (Bytes × Chain)}
    (h : hasKeyE k es = false) : ∀ p ∈ es, p.1 ≠ k := by
  induction es with
  | nil => simp
  | cons p rest ih =>
    intro q hq
    by_cases h1 : p.1 = k
    · simp [hasKeyE, h1] at h
    · rcases List.mem_cons.mp hq with rfl | hq'
      · exact h1
      · refine ih ?_ q hq'
        simpa [hasKeyE, h1] using h

theorem chainOfE_mem_of_hasKey {k : Bytes} {es : List (Bytes × Chain)}
    (h : hasKeyE k es = true) : (k, chainOfE k es) ∈ es := by
  induction es with
  | nil => simp [hasKeyE] at h
  | cons p rest ih =>
    by_cases h1 : p.1 = k
    · simp only [chainOfE, if_pos h1]
      refine List.mem_cons.mpr (Or.inl ?_)
      rw [← h1, Prod.mk.eta]
    · simp only [chainOfE, if_neg h1]
      have h2 : hasKeyE k rest = true := by simpa [hasKeyE, h1] using h
      exact List.mem_cons_of_mem _ (ih h2)

theorem firstChain_none {k : Bytes} {ts : List Trie}
    (h : ∀ t ∈ ts, t.hasKey k = false) : firstChain k ts = none := by
  induction ts with
  | nil => rfl
  | cons t rest ih =>
    have h1 := h t (List.mem_cons_self _ _)
    simp only [firstChain, h1]
    exact ih fun u hu => h u (List.mem_cons_of_mem _ hu)

theorem firstChain_mem {k : Bytes} {ts : List Trie} {c : Chain}
    (h : firstChain k ts = some c) :
    ∃ t ∈ ts, t.hasKey k = true ∧ c = t.chainOf k := by
  induction ts with
  | nil => simp [firstChain] at h
  | cons t rest ih =>
    by_cases h1 : t.hasKey k
    · simp only [firstChain, if_pos h1, Option.some.injEq] at h
      exact ⟨t, List.mem_cons_self _ _, h1, h.symm⟩
    · simp only [firstChain, if_neg h1] at h
      rcases ih h with ⟨u, hu, h2, h3⟩
      exact ⟨u, List.mem_cons_of_mem _ hu, h2, h3⟩

theorem firstChain_append_skip {k : Bytes} {pre post : List Trie}
    (hpre : ∀ u ∈ pre, u.hasKey k = false) {t : Trie} (ht : t.hasKey k = true) :
    firstChain k (pre ++ t :: post) = some (t.chainOf k) := by
  induction pre with
  | nil => simp [firstChain, ht]
  | cons u us ih =>
    have h1 := hpre u (List.mem_cons_self _ _)
    simp only [List.cons_append, firstChain, h1, Bool.false_eq_true, if_false]
    exact ih fun v hv => hpre v (List.mem_cons_of_mem _ hv)

theorem runCb_true (l : Chain) : runCb (fun _ => true) l = l := by
  induction l with
  | nil => rfl
  | cons n ns ih => simp [runCb, ih]

/-- The position of the single-trie forward iterator
(`PTrieRep::Iterator<false, Lock>`): `rest` is the suffix of the trie's
entries from the lex-cursor's current word on (the cursor sits on the head),
and `chain` is the suffix of the current word's chain from `where_` on (the
current node is its head; an empty `chain` is `where_ == nil_sentinel`,
i.e. `!Valid()`). -/
structure SIter where
  rest : List (Bytes × Chain)
  chain : Chain
deriving DecidableEq

/-- `Iterator::SeekToFirst` (source lines 571–595): `seek_begin` on the lex
cursor — on an empty trie the iterator becomes invalid — then
`where_ = most_left(root)`, the head of the first word's chain. -/
def sSeekToFirst (t : Trie) : SIter :=
  match t.entries with
  | [] => ⟨[], []⟩
  | (k, c) :: rest => ⟨(k, c) :: rest, c⟩

/-- `Iterator::Valid` (source lines 451–453): `where_ != nil_sentinel`. -/
def sValid (it : SIter) : Bool := !it.chain.isEmpty

/-- The record at the current position: the user key the lex cursor sits on
(`Current().iter->word()`) together with the node `where_` points at, the
pair `build_key` encodes into the output buffer (source lines 53–65). -/
def sCurrent (it : SIter) : Option (Bytes × RepNode) :=
  match it.chain with
  | [] => none
  | n :: _ =>
    match it.rest with
    | [] => none
    | (k, _) :: _ => some (k, n)

/-- `Iterator::Next` (source lines 463–472): `where_ = move_next(where_)`
inside the chain; when that yields `nil_sentinel`, `ItemNext`
(source lines 365–399) advances the lex cursor with `incr()` and descends to
`most_left` of the next word's chain; when the cursor is exhausted the
iterator stays invalid. -/
def sNext (it : SIter) : SIter :=
  match it.chain with
  | _ :: m :: ms => ⟨it.rest, m :: ms⟩
  | _ =>
    match it.rest with
    | _ :: (k, c) :: rest => ⟨(k, c) :: rest, c⟩
    | _ => ⟨[], []⟩

/-- The record sequence a forward scan emits: call `sCurrent`, stop when the
iterator is invalid, otherwise advance with `sNext`; `fuel` bounds the number
of steps. -/
def collectFuel : Nat → SIter → List (Bytes × RepNode)
  | 0, _ => []
  | fuel + 1, it =>
    match sCurrent it with
    | none => []
    | some r => r :: collectFuel fuel (sNext it)

/-- The records still ahead of an iterator position (current one included). -/
def SIter.toList (it : SIter) : List (Bytes × RepNode) :=
  match it.rest with
  | [] => []
  | (k, _) :: rest => (it.chain.map fun n => (k, n)) ++ recordsOfEntries rest

theorem toList_sSeekToFirst (t : Trie) :
    (sSeekToFirst t).toList = recordsOfEntries t.entries := by
  rcases hes : t.entries with _ | ⟨⟨k, c⟩, rest⟩
  · simp [sSeekToFirst, hes, SIter.toList, recordsOfEntries]
  · simp [sSeekToFirst, hes, SIter.toList, recordsOfEntries]

theorem collectFuel_nil (fuel : Nat) : collectFuel fuel ⟨[], []⟩ = [] := by
  cases fuel <;> rfl

/-- With enough fuel, and starting from a position whose upcoming words all
have non-empty chains, the forward scan emits exactly the records ahead of
the iterator. -/
theorem collectFuel_eq_toList :
    ∀ (fuel : Nat) (it : SIter),
    (∀ p ∈ it.rest, p.2 ≠ []) →
    (it.chain ≠ [] ∨ it.rest.tail = []) →
    it.toList.length ≤ fuel →
    collectFuel fuel it = it.toList := by
  intro fuel
  induction fuel with
  | zero =>
    intro it _ _ hlen
    have h0 : it.toList = [] := List.eq_nil_of_length_eq_zero (Nat.le_zero.mp hlen)
    rw [h0]
    rfl
  | succ fuel ih =>
    intro it hne hc hlen
    obtain ⟨rest, chain⟩ := it
    rcases rest with _ | ⟨⟨k, c0⟩, rest'⟩
    · have h0 : SIter.toList ⟨[], chain⟩ = [] := by simp [SIter.toList]
      rw [h0]
      rcases chain with _ | ⟨n, ns⟩ <;> rfl
    · rcases chain with _ | ⟨n, ns⟩
      · rcases hc with hc1 | hc2
        · exact absurd rfl hc1
        · have hr' : rest' = [] := by simpa using hc2
          subst hr'
          have hcnil : c0 ≠ [] := hne (k, c0) (by simp)
          have h0 : SIter.toList ⟨[(k, c0)], []⟩ = [] := by
            simp [SIter.toList, recordsOfEntries]
          rw [h0]
          rfl
      · have hstep : collectFuel (fuel + 1) ⟨(k, c0) :: rest', n :: ns⟩
            = (k, n) :: collectFuel fuel (sNext ⟨(k, c0) :: rest', n :: ns⟩) := rfl
        have hto : SIter.toList ⟨(k, c0) :: rest', n :: ns⟩
            = (k, n) :: ((ns.map fun m => (k, m)) ++ recordsOfEntries rest') := by
          simp [SIter.toList]
        rw [hstep, hto]
        rcases ns with _ | ⟨m, ms⟩
        · rcases rest' with _ | ⟨⟨k2, c2⟩, rest2⟩
          · have hnext : sNext ⟨[(k, c0)], [n]⟩ = ⟨[], []⟩ := rfl
            rw [hnext, collectFuel_nil]
            simp [recordsOfEntries]
          · have hnext : sNext ⟨(k, c0) :: (k2, c2) :: rest2, [n]⟩
                = ⟨(k2, c2) :: rest2, c2⟩ := rfl
            rw [hnext]
            have hne2 : ∀ p ∈ (k2, c2) :: rest2, p.2 ≠ [] := by
              intro p hp
              exact hne p (List.mem_cons_of_mem _ hp)
            have hc2ne : c2 ≠ [] := hne2 (k2, c2) (by simp)
            have hih := ih ⟨(k2, c2) :: rest2, c2⟩ hne2 (Or.inl hc2ne) ?_
            · rw [hih]
              simp [SIter.toList, recordsOfEntries]
            · have hlen2 : (SIter.toList ⟨(k2, c2) :: rest2, c2⟩).length
                  = (recordsOfEntries ((k2, c2) :: rest2)).length := by
                simp [SIter.toList, recordsOfEntries]
              rw [hlen2]
              have hthis := hlen
              rw [hto] at hthis
              simp only [List.length_cons, List.map_nil, List.nil_append] at hthis
              omega
        · have hnext : sNext ⟨(k, c0) :: rest', n :: m :: ms⟩
              = ⟨(k, c0) :: rest', m :: ms⟩ := rfl
          rw [hnext]
          have hih := ih ⟨(k, c0) :: rest', m :: ms⟩ hne (Or.inl (by simp)) ?_
          · rw [hih]
            simp [SIter.toList]
          · rw [hto] at hlen
            have htl : SIter.toList ⟨(k, c0) :: rest', m :: ms⟩
                = ((m :: ms).map fun n => (k, n)) ++ recordsOfEntries rest' := rfl
            rw [htl, List.length_append]
            simp only [List.length_cons, List.length_append, List.length_map] at hlen ⊢
            omega

/-- The four iterator specializations `GetIterator` chooses among
(source lines 625–647): `single`/`multi` by `trie_vec_.size() == 1`,
`locked` (`MutexLock`) / `unlocked` (`DummyLock`) by `immutable_`. -/
inductive IterKind
  | singleUnlocked
  | multiUnlocked
  | singleLocked
  | multiLocked
deriving DecidableEq

/-- `PTrieRep::GetIterator` (source lines 625–647): pick the specialization
from `immutable_` and `trie_vec_.size()`. -/
def getIteratorKind (st : PTrieRep) : IterKind :=
  if st.immutable then
    if st.tries.length = 1 then IterKind.singleUnlocked else IterKind.multiUnlocked
  else
    if st.tries.length = 1 then IterKind.singleLocked else IterKind.multiLocked

/-- Shard-mutex acquisitions performed by `Iterator::SeekToFirst` on the
single-trie specialization (source lines 571–595): when the trie is nonempty
the body constructs `MutexLock _lock(sharding(value, rep_->mutex_))`
unconditionally — the `Lock` template parameter that `GetIterator` sets to
`DummyLock` for a sealed representation (source lines 628 and 632) is never
referenced by the iterator body, so the count does not depend on the
`sealed` argument. -/
def iterSeekToFirstLocks (_sealed : Bool) (t : Trie) : Nat :=
  if t.entries.isEmpty then 0 else 1

/-- Shard-mutex acquisitions performed by `Iterator::Next`
(source lines 463–472) on the single-trie specialization: one `MutexLock`
around `move_next` — constructed whatever the `Lock` specialization — plus
one more inside `ItemNext` (source line 394) when the chain is exhausted and
the lex cursor still has a next word. -/
def iterNextLocks (_sealed : Bool) (it : SIter) : Nat :=
  1 + (match it.chain with
    | _ :: _ :: _ => 0
    | _ =>
      match it.rest with
      | _ :: _ :: _ => 1
      | _ => 0)

/-- The 64-bit byte swap of the `terark::byte_swap` collaborator: the eight
bytes of a 64-bit word in reverse order. -/
def byteSwap64 (x : Nat) : Nat :=
  (x % 256) * 2 ^ 56 + (x / 2 ^ 8 % 256) * 2 ^ 48 + (x / 2 ^ 16 % 256) * 2 ^ 40 +
  (x / 2 ^ 24 % 256) * 2 ^ 32 + (x / 2 ^ 32 % 256) * 2 ^ 24 + (x / 2 ^ 40 % 256) * 2 ^ 16 +
  (x / 2 ^ 48 % 256) * 2 ^ 8 + (x / 2 ^ 56 % 256)

/-- `PTrieRep::sharding` (source lines 67–70): the index, among `numShards`
mutexes, of the mutex chosen for the payload slot address `p`; `val << 3`
wraps at the 64-bit `uintptr_t` width and `val >> 61` brings the top three
bits down before the byte swap and the modulo. -/
def sharding (p numShards : Nat) : Nat :=
  byteSwap64 ((p <<< 3) % 2 ^ 64 ||| p >>> 61) % numShards

/-- Written from the spec's words (§4.3):
`shard(p) = byte_swap( (p << 3) | (p >> (W-3)) ) mod N` with `W = 64`. -/
def shardSpecFormula (p numShards : Nat) : Nat :=
  byteSwap64 ((p <<< 3) % 2 ^ 64 ||| p >>> (64 - 3)) % numShards

/-- The arguments `CreateMemTableRep` receives besides the factory state: the
user comparator (observed only through its `Name()`, which is what the source
compares with `strcmp`) and the remaining parameters, opaque handles here
since they are forwarded untouched. -/
structure CreateArgs where
  userComparatorName : String
  allocatorId : Nat
  transformId : Nat
  loggerId : Nat
deriving DecidableEq

/-- `BytewiseComparator()->Name()`, the name of the default lexicographic
comparator (source line 665). -/
def bytewiseComparatorName : String := "leveldb.BytewiseComparator"

/-- What `PTrieMemtableRepFactory::CreateMemTableRep` returns: a patricia-trie
representation built with the factory's sharding count, or whatever the
fallback factory builds from the same arguments. -/
inductive CreatedRep
  | ptrie (shardingCount : Nat) (args : CreateArgs)
  | fallback (fallbackId : Nat) (args : CreateArgs)
deriving DecidableEq

/-- `PTrieMemtableRepFactory` state: `sharding_count_` and `fallback_`. -/
structure Factory where
  shardingCount : Nat
  fallbackId : Nat
deriving DecidableEq

/-- `PTrieMemtableRepFactory::CreateMemTableRep` (source lines 659–670):
build a `PTrieRep` when `strcmp(user_comparator->Name(),
BytewiseComparator()->Name()) == 0`, otherwise delegate to the fallback
factory, forwarding the arguments unchanged. -/
def createMemTableRep (f : Factory) (args : CreateArgs) : CreatedRep :=
  if args.userComparatorName = bytewiseComparatorName then
    CreatedRep.ptrie f.shardingCount args
  else
    CreatedRep.fallback f.fallbackId args

/-- The iterator's output order: ascending user key lexicographically, and
inside one user key strictly descending tag. -/
def recOrder (a b : Bytes × RepNode) : Prop :=
  lexLt a.1 b.1 = true ∨ (a.1 = b.1 ∧ b.2.tag < a.2.tag)

theorem mem_recordsOfEntries {r : Bytes × RepNode} {es : List (Bytes × Chain)}
    (h : r ∈ recordsOfEntries es) : ∃ p ∈ es, r.1 = p.1 ∧ r.2 ∈ p.2 := by
  induction es with
  | nil => simp [recordsOfEntries] at h
  | cons p rest ih =>
    simp only [recordsOfEntries, List.mem_append] at h
    rcases h with h1 | h1
    · rcases List.mem_map.mp h1 with ⟨n, hn, h2⟩
      refine ⟨p, List.mem_cons_self _ _, ?_, ?_⟩
      · rw [← h2]
      · rw [← h2]
        exact hn
    · rcases ih h1 with ⟨q, hq, h2, h3⟩
      exact ⟨q, List.mem_cons_of_mem _ hq, h2, h3⟩

/-- A trie whose words are in strict lex order and whose chains are strictly
descending yields its records in the iterator's output order. -/
theorem pairwise_recordsOfEntries {es : List (Bytes × Chain)}
    (hkeys : es.Pairwise fun a b => lexLt a.1 b.1 = true)
    (hchains : ∀ p ∈ es, p.2.Pairwise fun m n => n.tag < m.tag) :
    (recordsOfEntries es).Pairwise recOrder := by
  induction es with
  | nil => simp [recordsOfEntries]
  | cons p rest ih =>
    rcases List.pairwise_cons.mp hkeys with ⟨hp, hrest⟩
    simp only [recordsOfEntries]
    rw [List.pairwise_append]
    refine ⟨?_, ih hrest (fun q hq => hchains q (List.mem_cons_of_mem _ hq)), ?_⟩
    · rw [List.pairwise_map]
      refine List.Pairwise.imp ?_ (hchains p (List.mem_cons_self _ _))
      intro m n hmn
      exact Or.inr ⟨rfl, hmn⟩
    · intro x hx y hy
      rcases List.mem_map.mp hx with ⟨n, hn, h2⟩
      rcases mem_recordsOfEntries hy with ⟨q, hq, h3, _⟩
      refine Or.inl ?_
      rw [← h2, h3]
      exact hp q hq

/-- A concrete sealed representation: base block size 16, 4 shards, one
insert of user key `[97]` with tag `257` and value `[114]`, then
`MarkReadOnly`. -/
def sealedExample : PTrieRep :=
  markReadOnly ((applyOps 16 4 [⟨[97], 257, [114]⟩]).getD (PTrieRep.init 16 4))

/-- C2: evaluated on a sealed representation, `Contains` and `Get` do skip
the shard mutex (their lock counts are 0), and `GetIterator` selects the
`DummyLock` ("unlocked") specialization — but the iterator body constructs
`MutexLock` unconditionally (the `Lock` template parameter is never used), so
`SeekToFirst` and `Next` still acquire a shard mutex: the claim's "every
operation of an iterator … runs without taking any shard lock" fails on the
code. -/
theorem C2_sealed_iterator_still_locks :
    sealedExample.immutable = true ∧
    getIteratorKind sealedExample = IterKind.singleUnlocked ∧
    (sealedExample.contains [97] 257).2 = 0 ∧
    (sealedExample.get [97] 257 fun _ => true).2 = 0 ∧
    iterSeekToFirstLocks true (sealedExample.tries.getD 0 ⟨0, []⟩) = 1 ∧
    iterNextLocks true (sSeekToFirst (sealedExample.tries.getD 0 ⟨0, []⟩)) = 1 := by
  decide

/-- C4: at every state reachable by a sequence of inserts with pairwise
distinct (user key, tag), every user key's version chain — enumerated from
`most_left` via `move_next`, which is exactly the in-order node sequence the
chain is represented by — has strictly descending tags; and one insertion
step preserves strict descent on both paths of `Insert`: the `init_value`
path is the instance with the empty chain, the shard-locked splice path the
instance with the existing chain. -/
theorem C4_chain_strict_descending
    (base shards : Nat) (ops : List InsOp) (st : PTrieRep)
    (hu : ops.Pairwise fun a b => a.key ≠ b.key ∨ a.tag ≠ b.tag)
    (hst : applyOps base shards ops = some st) :
    (∀ t ∈ st.tries, ∀ p ∈ t.entries, p.2.Pairwise fun m n => n.tag < m.tag) ∧
    (∀ (c : Chain) (n : RepNode), (c.Pairwise fun m n => n.tag < m.tag) →
      (∀ m ∈ c, m.tag ≠ n.tag) →
      (chainInsertMulti n c).Pairwise fun m n => n.tag < m.tag) :=
  ⟨applyOps_chains_strict hst hu, fun _ _ h1 h2 => chainInsertMulti_sorted_strict h1 h2⟩

/-- C4 witness: the two-revision chain of the concrete two-insert run is
strictly descending. -/
theorem C4_chain_strict_descending_witness :
    List.Pairwise (fun m n : RepNode => n.tag < m.tag) [⟨2, [5]⟩, ⟨1, [6]⟩] := by
  have h := C4_chain_strict_descending 4 2 [⟨[97], 2, [5]⟩, ⟨[97], 1, [6]⟩]
    ((applyOps 4 2 [⟨[97], 2, [5]⟩, ⟨[97], 1, [6]⟩]).getD (PTrieRep.init 4 2))
    (by decide) (by rfl)
  exact h.1 ⟨4, [([97], [⟨2, [5]⟩, ⟨1, [6]⟩])]⟩ (by decide)
    ([97], [⟨2, [5]⟩, ⟨1, [6]⟩]) (by decide)

/-- C5: `Contains` — receiving the (user key, tag) pair the collaborator
codec splits the internal key into — scans the tries in index order; its
boolean is true exactly when the first trie containing the user key has a
revision carrying the queried tag; it is false (with no lock taken) when no
trie contains the user key; tries after the first matching one never
influence the result; and the shard lock is taken exactly once on a hit when
the representation is not sealed, never when it is. -/
theorem C5_contains_first_trie (ts : List Trie) (immut : Bool) (k : Bytes) (τ : Nat) :
    ((containsOnTries ts immut k τ).1 = true ↔
      ∃ c, firstChain k ts = some c ∧ chainHasTag c τ = true) ∧
    ((∀ t ∈ ts, t.hasKey k = false) → containsOnTries ts immut k τ = (false, 0)) ∧
    (∀ (pre post post' : List Trie) (t : Trie),
      (∀ u ∈ pre, u.hasKey k = false) → t.hasKey k = true →
      containsOnTries (pre ++ t :: post) immut k τ
        = containsOnTries (pre ++ t :: post') immut k τ ∧
      (containsOnTries (pre ++ t :: post) immut k τ).1 = chainHasTag (t.chainOf k) τ) ∧
    ((containsOnTries ts immut k τ).2
      = if immut then 0 else if (firstChain k ts).isSome then 1 else 0) := by
  refine ⟨?_, ?_, ?_, ?_⟩
  · rcases hc : firstChain k ts with _ | c
    · simp [containsOnTries, hc]
    · simp [containsOnTries, hc]
  · intro h
    rw [containsOnTries, firstChain_none h]
  · intro pre post post' t hpre ht
    rw [containsOnTries, containsOnTries,
      firstChain_append_skip hpre ht, firstChain_append_skip hpre ht]
    exact ⟨rfl, rfl⟩
  · rcases hc : firstChain k ts with _ | c
    · simp [containsOnTries, hc]
    · simp [containsOnTries, hc]

/-- C5 witness: on a singleton vector holding an empty trie, `Contains`
returns false and takes no lock. -/
theorem C5_contains_first_trie_witness :
    containsOnTries [⟨4, []⟩] false [97] 5 = (false, 0) :=
  (C5_contains_first_trie [⟨4, []⟩] false [97] 5).2.1 (by decide)

/-- C6: after any sequence of inserts, the trie at index `i` carries the
arena block size `base <<< i`: the constructor gives trie 0 the allocator's
base block size, and the `arena_full`-triggered append gives the new last
trie the base size shifted by the new index. -/
theorem getD_map_blockSize :
    ∀ (ts : List Trie) (i : Nat), i < ts.length →
    (ts.map Trie.blockSize).getD i 0 = (ts.getD i ⟨0, []⟩).blockSize := by
  intro ts
  induction ts with
  | nil =>
    intro i hi
    simp at hi
  | cons t rest ih =>
    intro i hi
    cases i with
    | zero => rfl
    | succ j => exact ih j (by simpa using hi)

theorem getD_range_shift (base : Nat) :
    ∀ (len i : Nat), i < len →
    ((List.range len).map fun j => base <<< j).getD i 0 = base <<< i := by
  intro len
  induction len with
  | zero =>
    intro i hi
    omega
  | succ m ih =>
    intro i hi
    rw [List.range_succ, List.map_append]
    by_cases h : i < m
    · rw [List.getD_append _ _ _ _ (by simpa using h)]
      exact ih i h
    · have him : i = m := by omega
      subst him
      rw [List.getD_append_right _ _ _ _ (by simp)]
      simp

theorem C6_geometric_block_sizes
    (base shards : Nat) (ops : List InsOp) (st : PTrieRep)
    (hst : applyOps base shards ops = some st) :
    ∀ i, i < st.tries.length → (st.tries.getD i ⟨0, []⟩).blockSize = base <<< i := by
  have hg := applyOps_geometric hst
  unfold geometricSizes at hg
  intro i hi
  rw [← getD_map_blockSize st.tries i hi, hg, getD_range_shift base st.tries.length i hi]

/-- C6 witness: forcing growth with base block size 1, the appended trie at
index 1 has block size `1 <<< 1`. -/
theorem C6_geometric_block_sizes_witness :
    ((((applyOps 1 1 [⟨[97], 1, [2]⟩, ⟨[98], 2, [3]⟩]).getD
        (PTrieRep.init 1 1)).tries).getD 1 ⟨0, []⟩).blockSize = 1 <<< 1 := by
  have h := C6_geometric_block_sizes 1 1 [⟨[97], 1, [2]⟩, ⟨[98], 2, [3]⟩]
    ((applyOps 1 1 [⟨[97], 1, [2]⟩, ⟨[98], 2, [3]⟩]).getD (PTrieRep.init 1 1))
    (by rfl)
  exact h 1 (by decide)

/-- C7: the shard index of a payload address equals the spec's
`byte_swap((p << 3) | (p >> (64-3))) mod N` formula, lies below the shard
count, and the sharding function is deterministic — repeated calls with the
same address yield the same mutex index. -/
theorem C7_sharding_formula (p numShards : Nat) (hN : 0 < numShards) :
    sharding p numShards = shardSpecFormula p numShards ∧
    sharding p numShards < numShards ∧
    ∀ q : Nat, q = p → sharding q numShards = sharding p numShards := by
  refine ⟨rfl, Nat.mod_lt _ hN, fun q hq => by rw [hq]⟩

/-- C7 witness at a concrete address and shard count. -/
theorem C7_sharding_formula_witness :
    sharding 123456789 7 = shardSpecFormula 123456789 7 ∧
    sharding 123456789 7 < 7 ∧
    ∀ q : Nat, q = 123456789 → sharding q 7 = sharding 123456789 7 :=
  C7_sharding_formula 123456789 7 (by decide)

/-- C8: `MarkReadOnly` is idempotent — a second call leaves the state
unchanged — and, absent intervening writes, sealing changes no read result:
the trie vector (which an iterator reads), the boolean of `Contains`, the
callback sequence of `Get` and `ApproximateNumEntries` are identical before
and after. -/
theorem C8_markReadOnly_idempotent (st : PTrieRep) (k : Bytes) (τ : Nat)
    (cb : RepNode → Bool) (s e : Bytes) :
    markReadOnly (markReadOnly st) = markReadOnly st ∧
    (markReadOnly st).tries = st.tries ∧
    ((markReadOnly st).contains k τ).1 = (st.contains k τ).1 ∧
    ((markReadOnly st).get k τ cb).1 = (st.get k τ cb).1 ∧
    approximateNumEntries (markReadOnly st) s e = approximateNumEntries st s e := by
  refine ⟨rfl, rfl, ?_, ?_, rfl⟩
  · rcases hc : firstChain k st.tries with _ | c <;>
      simp [PTrieRep.contains, containsOnTries, markReadOnly, hc]
  · rcases hc : firstChain k st.tries with _ | c <;>
      simp [PTrieRep.get, getOnTries, markReadOnly, hc]

/-- C9: the factory returns the patricia-trie representation exactly when the
user comparator is the default bytewise comparator (the source's `strcmp`
test of comparator names); for any other comparator it delegates to the
fallback factory with the same arguments. -/
theorem C9_factory_dispatch (f : Factory) (args : CreateArgs) :
    (args.userComparatorName = bytewiseComparatorName →
      createMemTableRep f args = CreatedRep.ptrie f.shardingCount args) ∧
    (args.userComparatorName ≠ bytewiseComparatorName →
      createMemTableRep f args = CreatedRep.fallback f.fallbackId args) ∧
    ((∃ n a, createMemTableRep f args = CreatedRep.ptrie n a) ↔
      args.userComparatorName = bytewiseComparatorName) := by
  by_cases h : args.userComparatorName = bytewiseComparatorName <;>
    simp [createMemTableRep, h]

/-- C9 witness: with the bytewise comparator name the patricia-trie
representation is selected. -/
theorem C9_factory_dispatch_witness :
    createMemTableRep ⟨4, 9⟩ ⟨bytewiseComparatorName, 1, 2, 3⟩
      = CreatedRep.ptrie 4 ⟨bytewiseComparatorName, 1, 2, 3⟩ :=
  (C9_factory_dispatch ⟨4, 9⟩ ⟨bytewiseComparatorName, 1, 2, 3⟩).1 rfl

/-- C10: `ApproximateNumEntries` returns 0 for every state and every pair of
boundary keys. -/
theorem C10_approximateNumEntries_zero (st : PTrieRep) (s e : Bytes) :
    approximateNumEntries st s e = 0 := rfl

/-- C1: at any state reached by inserts with pairwise distinct
(user key, tag), `Get(k@τ, cb)` — fed the split key the collaborator codec
produces — invokes the callback exactly on the revisions of `k` whose tag is
`≤ τ` held by the first trie (lowest index) whose lookup of `k` succeeds, in
strictly descending tag order, stopping as soon as the callback returns
false (`runCb`); when no trie contains `k` the callback is never invoked;
and the tries after the first matching one never influence the outcome. -/
theorem C1_get_first_trie_descending
    (base shards : Nat) (ops : List InsOp) (st : PTrieRep) (k : Bytes) (τ : Nat)
    (cb : RepNode → Bool)
    (hu : ops.Pairwise fun a b => a.key ≠ b.key ∨ a.tag ≠ b.tag)
    (hst : applyOps base shards ops = some st) :
    (∀ c, firstChain k st.tries = some c →
      (st.get k τ cb).1 = runCb cb (c.filter fun n => decide (n.tag ≤ τ)) ∧
      (st.get k τ fun _ => true).1 = c.filter (fun n => decide (n.tag ≤ τ)) ∧
      (∀ n : RepNode, n ∈ (st.get k τ fun _ => true).1 ↔ n ∈ c ∧ n.tag ≤ τ) ∧
      ((st.get k τ fun _ => true).1.Pairwise fun m n => n.tag < m.tag)) ∧
    (firstChain k st.tries = none → (st.get k τ cb).1 = []) ∧
    (∀ (pre post post' : List Trie) (immut : Bool) (t : Trie),
      (∀ u ∈ pre, u.hasKey k = false) → t.hasKey k = true →
      getOnTries (pre ++ t :: post) immut k τ cb
        = getOnTries (pre ++ t :: post') immut k τ cb) := by
  rcases applyOps_wf hst with ⟨hwf, hperm, _, _, _⟩
  refine ⟨?_, ?_, ?_⟩
  · intro c hc
    rcases firstChain_mem hc with ⟨t, ht, hkey, hceq⟩
    have hmem : (k, c) ∈ t.entries := by
      rw [hceq]
      exact chainOfE_mem_of_hasKey hkey
    have hsorted : c.Pairwise fun m n => n.tag ≤ m.tag :=
      (hwf t ht).2.2 (k, c) hmem
    have hstrict : c.Pairwise fun m n => n.tag < m.tag :=
      applyOps_chains_strict hst hu t ht (k, c) hmem
    have hfilter := chainLowerBound_eq_filter hsorted τ
    have hget : ∀ cb' : RepNode → Bool,
        (st.get k τ cb').1 = runCb cb' (chainLowerBound c τ) := by
      intro cb'
      simp [PTrieRep.get, getOnTries, hc]
    refine ⟨?_, ?_, ?_, ?_⟩
    · rw [hget cb, hfilter]
    · rw [hget _, hfilter, runCb_true]
    · intro n
      rw [hget _, hfilter, runCb_true]
      simp [List.mem_filter]
    · rw [hget _, hfilter, runCb_true]
      exact List.Pairwise.sublist (List.filter_sublist _) hstrict
  · intro hc
    simp [PTrieRep.get, getOnTries, hc]
  · intro pre post post' immut t hpre ht
    rw [getOnTries, getOnTries, firstChain_append_skip hpre ht,
      firstChain_append_skip hpre ht]

/-- C1 witness: the two-revision key `[97]`, queried at tag 2 with an
always-true callback, yields exactly its revisions with tag ≤ 2. -/
theorem C1_get_first_trie_descending_witness :
    (((applyOps 4 2 [⟨[97], 2, [5]⟩, ⟨[97], 1, [6]⟩]).getD
        (PTrieRep.init 4 2)).get [97] 2 fun _ => true).1
      = ([⟨2, [5]⟩, ⟨1, [6]⟩] : Chain).filter (fun n => decide (n.tag ≤ 2)) := by
  have h := C1_get_first_trie_descending 4 2 [⟨[97], 2, [5]⟩, ⟨[97], 1, [6]⟩]
    ((applyOps 4 2 [⟨[97], 2, [5]⟩, ⟨[97], 1, [6]⟩]).getD (PTrieRep.init 4 2))
    [97] 2 (fun _ => true) (by decide) (by rfl)
  exact (h.1 [⟨2, [5]⟩, ⟨1, [6]⟩] (by rfl)).2.1

/-- C3: when every inserted record landed in trie 0 (the trie vector is
still the single trie `t`), the forward scan — `SeekToFirst`, then `Next`
until `!Valid()` — emits every inserted (user key, tag, value) record
exactly once (the emitted sequence is a permutation of the insert sequence,
whose records are pairwise distinct by the uniqueness contract), ordered by
ascending user key lexicographically and, within one user key, strictly
descending tag. -/
theorem C3_single_trie_iteration
    (base shards : Nat) (ops : List InsOp) (st : PTrieRep) (t : Trie)
    (hu : ops.Pairwise fun a b => a.key ≠ b.key ∨ a.tag ≠ b.tag)
    (hst : applyOps base shards ops = some st)
    (hsingle : st.tries = [t]) :
    List.Perm (collectFuel ops.length (sSeekToFirst t)) (ops.map InsOp.record) ∧
    (collectFuel ops.length (sSeekToFirst t)).Pairwise recOrder := by
  rcases applyOps_wf hst with ⟨hwf, hperm, _, _, _⟩
  have htmem : t ∈ st.tries := by
    rw [hsingle]
    exact List.mem_cons_self t []
  have hwfT : entriesWF t.entries := hwf t htmem
  have hrecperm : List.Perm t.records (ops.map InsOp.record) := by
    rw [hsingle] at hperm
    simpa [triesRecords] using hperm
  have hlen : (recordsOfEntries t.entries).length = ops.length := by
    have h1 := hrecperm.length_eq
    simpa [Trie.records, List.length_map] using h1
  have hcoll : collectFuel ops.length (sSeekToFirst t) = recordsOfEntries t.entries := by
    rw [← toList_sSeekToFirst t]
    apply collectFuel_eq_toList
    · rcases hes : t.entries with _ | ⟨⟨k, c⟩, rest⟩
      · simp [sSeekToFirst, hes]
      · simp only [sSeekToFirst, hes]
        intro p hp
        exact hwfT.2.1 p (by rw [hes]; exact hp)
    · rcases hes : t.entries with _ | ⟨⟨k, c⟩, rest⟩
      · simp [sSeekToFirst, hes]
      · refine Or.inl ?_
        simp only [sSeekToFirst, hes]
        exact hwfT.2.1 (k, c) (by rw [hes]; simp)
    · rw [toList_sSeekToFirst t, hlen]
  rw [hcoll]
  refine ⟨hrecperm, ?_⟩
  refine pairwise_recordsOfEntries hwfT.1 ?_
  intro p hp
  exact applyOps_chains_strict hst hu t htmem p hp

/-- C3 witness: two single-revision keys in one trie iterate as the insert
sequence (which is already in ascending key order). -/
theorem C3_single_trie_iteration_witness :
    List.Perm
      (collectFuel 2 (sSeekToFirst ⟨4, [([97], [⟨2, [5]⟩]), ([98], [⟨3, [6]⟩])]⟩))
      (([⟨[97], 2, [5]⟩, ⟨[98], 3, [6]⟩] : List InsOp).map InsOp.record) := by
  have h := C3_single_trie_iteration 4 2 [⟨[97], 2, [5]⟩, ⟨[98], 3, [6]⟩]
    ((applyOps 4 2 [⟨[97], 2, [5]⟩, ⟨[98], 3, [6]⟩]).getD (PTrieRep.init 4 2))
    ⟨4, [([97], [⟨2, [5]⟩]), ([98], [⟨3, [6]⟩])]⟩ (by decide) (by rfl) (by rfl)
  exact h.1

end TerarkMemtable
